import Mathlib

/-
Verification of the VoiceScribe AI core pipeline (voice-scribe-ai repository).

The development shallowly embeds the pure parts of the pipeline:
the hallucination filter (cleanText and hasRepetitionLoop in
src/api/transcribe.js, lines 287-427), the keyword corrector
(processKeywords), audio normalization, the RMS silence gate, the manual
resampler, and the transcription-result handler.

Strings are modelled as List Char.  JavaScript regular expressions are
modelled by explicit scanning functions that follow the backtracking
semantics of the concrete patterns used by the source (greedy quantifiers,
leftmost match, continuation after a match in global replaces).  Audio
samples are modelled as rationals; the source computes with IEEE doubles,
and every comparison relied on below is exact in both arithmetics.
Recursive scanners take an explicit fuel argument so that they are
structurally recursive; every call site passes fuel that is at least the
length of the scanned list, and a step always consumes at least one
character, so the fuel never runs out on those calls.
-/

set_option maxHeartbeats 1600000

namespace VoiceScribe

/-- Character list of a string literal. -/
def str (s : String) : List Char := s.data

/-- JavaScript whitespace: the set matched by the regex class \s and removed
by String.prototype.trim (space, tab, line terminators, vertical tab, form
feed, NBSP, the Unicode space separators, narrow and medium spaces,
ideographic space and the BOM). -/
def isJsWs (c : Char) : Bool :=
  c == ' ' || c == '\t' || c == '\n' || c.toNat == 11 || c.toNat == 12 ||
  c == '\r' || c.toNat == 0xa0 || c.toNat == 0x1680 ||
  (decide (0x2000 ≤ c.toNat) && decide (c.toNat ≤ 0x200a)) ||
  c.toNat == 0x2028 || c.toNat == 0x2029 || c.toNat == 0x202f ||
  c.toNat == 0x205f || c.toNat == 0x3000 || c.toNat == 0xfeff

/-- Drop the longest suffix whose characters satisfy p. -/
def dropTrailingWhile (p : Char → Bool) (s : List Char) : List Char :=
  (s.reverse.dropWhile p).reverse

/-- String.prototype.trim of the source: strip JavaScript whitespace from
both ends. -/
def trim (s : List Char) : List Char :=
  dropTrailingWhile isJsWs (s.dropWhile isJsWs)

/-- Lower-cased view of a string, modelling the canonicalization performed
by a case-insensitive JavaScript regex on the ASCII range (the i flag;
characters outside the ASCII letters, in particular all Japanese text in
the word lists, are fixed by it). -/
def lowerStr (s : List Char) : List Char := s.map Char.toLower

/-- String.prototype.includes: whether sub occurs contiguously in s. -/
def includesSeq : List Char → List Char → Bool
  | [], sub => sub.isEmpty
  | c :: rest, sub => sub.isPrefixOf (c :: rest) || includesSeq rest sub

/-- Greedy count of consecutive copies of cap at the head of s, as taken by
the backreference quantifier in a pattern of the shape (...)\1 followed by a
counted repetition.  Fuel bounds the recursion and is always at least the
length of s at call sites. -/
def repeatCountF (cap : List Char) : Nat → List Char → Nat
  | 0, _ => 0
  | f + 1, s =>
    if !cap.isEmpty && cap.isPrefixOf s then
      repeatCountF cap f (s.drop cap.length) + 1
    else 0

/-- Greedy count with the fuel instantiated to the length of the scanned
list. -/
def repeatCount (cap s : List Char) : Nat := repeatCountF cap s.length s

/-- Backreference repetition match anchored at the start of s for the
pattern (.\x7blo,hi\x7d)\1\x7b2,\x7d: the capture length is tried greedily from hi
down to lo (descending third argument), and for each candidate the
backreference copies are taken greedily; at least two further copies are
required.  The dot of the source pattern does not match a newline.  Returns
the capture length together with the total match length. -/
def repMatchLen (lo : Nat) (s : List Char) : Nat → Option (Nat × Nat)
  | 0 => none
  | l + 1 =>
    if l + 1 < lo then none
    else
      let cap := s.take (l + 1)
      if cap.length == l + 1 && cap.all (fun c => c != '\n') then
        let copies := repeatCount cap (s.drop (l + 1))
        if 2 ≤ copies then some (l + 1, (l + 1) * (1 + copies))
        else repMatchLen lo s l
      else repMatchLen lo s l

/-- Leftmost match of the repetition pattern: positions are tried from the
left, mirroring the regex engine; at each position the anchored matcher
above decides.  Returns the total length of the leftmost match. -/
def firstRepMatchF (lo hi : Nat) : Nat → List Char → Option (Nat × Nat)
  | 0, _ => none
  | f + 1, s =>
    match repMatchLen lo s hi with
    | some r => some r
    | none =>
      match s with
      | [] => none
      | _ :: rest => firstRepMatchF lo hi f rest

/-- Leftmost match of the loop pattern (.\x7b3,20\x7d)\1\x7b2,\x7d of
hasRepetitionLoop (src/api/transcribe.js line 402), total length only. -/
def firstLoopMatch (t : List Char) : Option Nat :=
  (firstRepMatchF 3 20 t.length t).map (fun r => r.2)

/-- Word splitter of hasRepetitionLoop (line 412): split on runs of the
separators in the class made of the ideographic comma, the ideographic full
stop and whitespace, discarding empty tokens. -/
def splitWords (t : List Char) : List (List Char) :=
  (t.splitOnP (fun c => c == '、' || c == '。' || isJsWs c)).filter
    (fun w => !w.isEmpty)

/-- Word-level loop detection of hasRepetitionLoop (lines 411-424): at least
three tokens, and some token occurs at least three times and makes up at
least 70 percent of all tokens.  The source compares count divided by the
token total against the double 0.7; the comparison is modelled exactly on
the rationals as 7 * total ≤ 10 * count.  The source iterates over the
counts of the distinct words, which is equivalent to the any below. -/
def hasWordLoop (t : List Char) : Bool :=
  let words := splitWords t
  decide (3 ≤ words.length) &&
    words.any (fun w =>
      decide (3 ≤ words.count w) &&
      decide (7 * words.length ≤ 10 * words.count w))

/-- hasRepetitionLoop (src/api/transcribe.js lines 398-427): texts shorter
than 6 characters are never loops; otherwise the text is a loop when the
leftmost match of the repetition pattern covers more than half of the text
(the source compares the match length against length times the double 0.5,
which is exact), or when the word-level detection fires. -/
def hasRepetitionLoop (t : List Char) : Bool :=
  if t.length < 6 then false
  else
    (match firstLoopMatch t with
     | some m => decide (t.length < 2 * m)
     | none => false) ||
    hasWordLoop t

/-- Digit or dot, the class of the first symbol-run regex (line 302). -/
def isDigitDot (c : Char) : Bool :=
  (decide ('0' ≤ c) && decide (c ≤ '9')) || c == '.'

/-- Global replace of every maximal run of characters of class p whose
length is at least minLen by repl, continuing after the replaced run, as a
global regex replace of a class repetition does.  A maximal run shorter
than minLen contains no match and is copied verbatim. -/
def collapseRunsF (p : Char → Bool) (minLen : Nat) (repl : List Char) :
    Nat → List Char → List Char
  | 0, s => s
  | f + 1, s =>
    match s with
    | [] => []
    | c :: rest =>
      if p c then
        let run := List.takeWhile p s
        let rest2 := List.dropWhile p s
        if minLen ≤ run.length then repl ++ collapseRunsF p minLen repl f rest2
        else run ++ collapseRunsF p minLen repl f rest2
      else c :: collapseRunsF p minLen repl f rest

/-- Run collapser with the fuel instantiated. -/
def collapseRuns (p : Char → Bool) (minLen : Nat) (repl : List Char)
    (s : List Char) : List Char :=
  collapseRunsF p minLen repl s.length s

/-- Stage 2 of cleanText (src/api/transcribe.js lines 300-307): delete runs
of at least four digit-or-dot characters, delete runs of at least two dots,
collapse runs of the ideographic full stop, the ideographic comma and the
horizontal ellipsis to a single occurrence, and collapse whitespace runs to
a single space, in that order. -/
def squashSymbolRuns (t : List Char) : List Char :=
  let a1 := collapseRuns isDigitDot 4 [] t
  let a2 := collapseRuns (fun c => c == '.') 2 [] a1
  let a3 := collapseRuns (fun c => c == '。') 2 ['。'] a2
  let a4 := collapseRuns (fun c => c == '、') 2 ['、'] a3
  let a5 := collapseRuns (fun c => c == '…') 2 ['…'] a4
  collapseRuns isJsWs 2 [' '] a5

/-- The blacklist of hallucination phrases (src/api/transcribe.js lines
312-328), in source order. -/
def blacklistWords : List (List Char) :=
  [str "ご視聴ありがとうございました",
   str "視聴ありがとうございました",
   str "ありがとうございました",
   str "お疲れ様でした",
   str "お疲れさまでした",
   str "チャンネル登録",
   str "高評価",
   str "いいね",
   str "字幕",
   str "サブタイトル",
   str "翻訳",
   str "Translated by",
   str "Subtitles by",
   str "Transcribed by",
   str "Amara.org"]

/-- Sentence-terminal characters of the split in the blacklist pass
(line 333). -/
def isSentenceEnd (c : Char) : Bool :=
  c == '。' || c == '.' || c == '!' || c == '?' || c == '！' || c == '？'

/-- Strip a leading and a trailing run of ideographic full stops, the
global replace anchored at both ends on line 337. -/
def dropEdgeDots (s : List Char) : List Char :=
  dropTrailingWhile (fun c => c == '。') (s.dropWhile (fun c => c == '。'))

/-- Stage 3 of cleanText (lines 330-339): for each blacklisted phrase that
occurs in the text, split into sentences on terminal punctuation (keeping
empty pieces, as the JavaScript split does), drop every piece containing
the phrase, rejoin with the ideographic full stop and strip the delimiter
runs at both ends. -/
def stripBlacklistSentences (t : List Char) : List Char :=
  blacklistWords.foldl
    (fun cur w =>
      if includesSeq cur w then
        dropEdgeDots (List.intercalate ['。']
          ((cur.splitOnP isSentenceEnd).filter (fun p => !includesSeq p w)))
      else cur) t

/-- Trailing-junk class of the blacklist-only pattern (line 343). -/
def isBlacklistTail (c : Char) : Bool :=
  c == '。' || c == '、' || c == '.' || isJsWs c

/-- The blacklist-only test (lines 342-348): after optional leading
whitespace the text starts, case-insensitively, with one of the blacklisted
phrases and continues with nothing but punctuation and whitespace.  The
anchored regex test is an existence check, so the alternation is modelled
by an any; no phrase starts with whitespace, hence taking the whole leading
whitespace run is faithful. -/
def blacklistOnly (t : List Char) : Bool :=
  let rest := t.dropWhile isJsWs
  blacklistWords.any (fun w =>
    (lowerStr w).isPrefixOf (lowerStr rest) &&
    (rest.drop w.length).all isBlacklistTail)

/-- Global replace of the mild repetition pattern (.\x7blo,hi\x7d)\1\x7b2,\x7d by the
capture (line 354 with lo 2 and hi 15): scan from the left; at a match,
emit one copy of the capture and continue after the whole match. -/
def collapseRepsF (lo hi : Nat) : Nat → List Char → List Char
  | 0, s => s
  | _ + 1, [] => []
  | f + 1, c :: rest =>
    match repMatchLen lo (c :: rest) hi with
    | some r => (c :: rest).take r.1 ++ collapseRepsF lo hi f ((c :: rest).drop r.2)
    | none => c :: collapseRepsF lo hi f rest

/-- Repetition collapser with the fuel instantiated. -/
def collapseReps (lo hi : Nat) (s : List Char) : List Char :=
  collapseRepsF lo hi s.length s

/-- Separator class of the token-repetition pattern (line 356): whitespace
or the ideographic comma. -/
def isSepChar (c : Char) : Bool := isJsWs c || c == '、'

/-- One separator-plus-word unit: at least one separator character followed
by the captured word.  The separator count is tried greedily from n
downwards (the capture is a run of non-whitespace characters and may itself
begin with an ideographic comma, which is also in the separator class, so
shorter separator runs must be attempted on failure).  Returns the consumed
length. -/
def sepCapUnitAux (cap t : List Char) : Nat → Option Nat
  | 0 => none
  | n + 1 =>
    if cap.isPrefixOf (t.drop (n + 1)) then some (n + 1 + cap.length)
    else sepCapUnitAux cap t n

/-- One unit with the greedy separator run as the starting candidate. -/
def sepCapUnit (cap t : List Char) : Option Nat :=
  sepCapUnitAux cap t (t.takeWhile isSepChar).length

/-- Greedily match as many further units as possible; a repetition
quantifier at the end of a pattern accepts as soon as the next unit fails.
Returns the number of units and the total consumed length.  Each unit
consumes at least one character, so fuel at least the length of t
suffices. -/
def greedyUnitsF (cap : List Char) : Nat → List Char → Nat × Nat
  | 0, _ => (0, 0)
  | f + 1, t =>
    match sepCapUnit cap t with
    | some u =>
      let r := greedyUnitsF cap f (t.drop u)
      (r.1 + 1, u + r.2)
    | none => (0, 0)

/-- The part of the token-repetition pattern after the capture: a first
separator-plus-word unit followed by at least one repeated unit.  The first
separator run backtracks to shorter lengths when the repeated group cannot
be satisfied. -/
def firstUnitThenRepsAux (cap t : List Char) : Nat → Option Nat
  | 0 => none
  | n + 1 =>
    if cap.isPrefixOf (t.drop (n + 1)) then
      let afterLen := n + 1 + cap.length
      let r := greedyUnitsF cap (t.drop afterLen).length (t.drop afterLen)
      if 1 ≤ r.1 then some (afterLen + r.2) else firstUnitThenRepsAux cap t n
    else firstUnitThenRepsAux cap t n

/-- Tail matcher with the greedy separator run as the starting candidate. -/
def firstUnitThenReps (cap t : List Char) : Option Nat :=
  firstUnitThenRepsAux cap t (t.takeWhile isSepChar).length

/-- Anchored match of the token-repetition pattern of line 356: the capture
is a greedy run of non-whitespace characters, backtracking to shorter
captures; returns the capture length and the total match length. -/
def wordRepMatchAux (s : List Char) : Nat → Option (Nat × Nat)
  | 0 => none
  | l + 1 =>
    match firstUnitThenReps (s.take (l + 1)) (s.drop (l + 1)) with
    | some consumed => some (l + 1, l + 1 + consumed)
    | none => wordRepMatchAux s l

/-- Anchored match starting from the full non-whitespace run. -/
def wordRepMatchAt (s : List Char) : Option (Nat × Nat) :=
  wordRepMatchAux s (s.takeWhile (fun c => !isJsWs c)).length

/-- Global replace of the token-repetition pattern by the captured word
(line 356). -/
def collapseWordRepsF : Nat → List Char → List Char
  | 0, s => s
  | _ + 1, [] => []
  | f + 1, c :: rest =>
    match wordRepMatchAt (c :: rest) with
    | some r => (c :: rest).take r.1 ++ collapseWordRepsF f ((c :: rest).drop r.2)
    | none => c :: collapseWordRepsF f rest

/-- Token-repetition collapser with the fuel instantiated. -/
def collapseWordReps (s : List Char) : List Char :=
  collapseWordRepsF s.length s

/-- Hiragana or katakana character of the first noise class (line 362): the
inclusive ranges from U+3042 to U+3093 and from U+30A2 to U+30F3. -/
def isHiraganaKatakana (c : Char) : Bool :=
  (decide ('あ' ≤ c) && decide (c ≤ 'ん')) ||
  (decide ('ア' ≤ c) && decide (c ≤ 'ン'))

/-- Stage 5 of cleanText (lines 361-377): the anchored noise patterns, each
tested against the trimmed text; any hit rejects the whole text.  Each
disjunct below is one source pattern in order. -/
def isNoiseText (t : List Char) : Bool :=
  (!t.isEmpty && decide (t.length ≤ 2) && t.all isHiraganaKatakana) ||
  (match t with
   | c :: rest =>
     (c == 'え' || c == 'あ' || c == 'う' || c == 'お') &&
     rest.all (fun d => d == 'ー' || d == 'っ')
   | [] => false) ||
  (match t with
   | c :: rest => c == 'は' && rest.all (fun d => d == 'い' || d == 'ぃ')
   | [] => false) ||
  (match t with
   | c :: rest => c == 'う' && rest.all (fun d => d == 'ん')
   | [] => false) ||
  (t == ['そ', 'う']) ||
  (match t with
   | c :: rest => c == 'ね' && rest.all (fun d => d == 'ぇ')
   | [] => false) ||
  (!t.isEmpty && t.all (fun c => c == '笑' || c == '泣' || c == '汗')) ||
  (match t with
   | c :: rest =>
     c == '(' && !rest.isEmpty && rest.dropLast.all (fun d => d != ')') &&
     rest.getLast? == some ')'
   | [] => false) ||
  (!t.isEmpty &&
   t.all (fun c => isJsWs c || c == '。' || c == '、' || c == '.' || c == '…'))

/-- Leading-junk class of the final cleanup (line 383). -/
def isLeadingJunk (c : Char) : Bool :=
  c == '、' || c == '。' || c == '.' || c == '…' || isJsWs c

/-- Trailing-junk class of the final cleanup (line 384): only the
ideographic comma and whitespace are stripped from the end. -/
def isFinalTrailingJunk (c : Char) : Bool := c == '、' || isJsWs c

/-- Stage 6 of cleanText (lines 380-384): trim, strip a leading punctuation
run and strip a trailing run of commas and whitespace. -/
def finalTrim (t : List Char) : List Char :=
  dropTrailingWhile isFinalTrailingJunk ((trim t).dropWhile isLeadingJunk)

/-- The filtering stages of cleanText between the loop rejection and the
final length gate, in source order: symbol-run squashing, blacklist
sentence stripping, both repetition collapses and the final trims. -/
def cleanPipeline (t : List Char) : List Char :=
  finalTrim (collapseWordReps (collapseReps 2 15
    (stripBlacklistSentences (squashSymbolRuns t))))

/-- cleanText (src/api/transcribe.js lines 287-392): the full hallucination
filter.  Empty input, a detected repetition loop, a text made only of
blacklisted material, a noise pattern, or a final length below three
characters all reject the text entirely; otherwise the cleaned text is
returned. -/
def cleanText (text : List Char) : List Char :=
  if text.isEmpty then []
  else if hasRepetitionLoop text then []
  else
    let c2 := squashSymbolRuns text
    let c3 := stripBlacklistSentences c2
    if blacklistOnly c3 then []
    else
      let c4 := collapseWordReps (collapseReps 2 15 c3)
      if isNoiseText (trim c4) then []
      else
        let c6 := finalTrim c4
        if c6.length < 3 then [] else c6

/-- Witness predicate for a contiguous repetition: starting at position s
the text carries c consecutive copies of its own substring of length L. -/
def repeatsAt (t : List Char) (s L c : Nat) : Bool :=
  (t.drop s).take (L * c) == List.flatten (List.replicate c ((t.drop s).take L))

/-- A registered keyword: numeric identifier and canonical word
(src/main.js line 565). -/
structure Keyword where
  id : Nat
  word : List Char
deriving DecidableEq

/-- ECMAScript GetSubstitution for a replacement string against a pattern
with no capture groups, as performed by String.prototype.replace with a
string replacement: a dollar followed by a dollar yields one dollar, by an
ampersand yields the matched substring, by a backquote (code point 96)
yields the portion of the subject before the match, by a quote (code point
39) yields the portion after the match; a dollar in any other context,
including the group references that do not exist for an escaped literal
pattern, is kept literally and scanning continues with the following
character. -/
def getSubstitution (matched before after : List Char) : List Char → List Char
  | [] => []
  | c :: rest =>
    if c = '$' then
      match rest with
      | [] => ['$']
      | d :: rest2 =>
        if d = '$' then '$' :: getSubstitution matched before after rest2
        else if d = '&' then matched ++ getSubstitution matched before after rest2
        else if d = Char.ofNat 96 then before ++ getSubstitution matched before after rest2
        else if d = Char.ofNat 39 then after ++ getSubstitution matched before after rest2
        else '$' :: getSubstitution matched before after (d :: rest2)
    else c :: getSubstitution matched before after rest

/-- One pass of the keyword corrector: global case-insensitive replace of
every occurrence of w by the replacement string w, scanning from the left
and continuing after each replaced occurrence, as the global regex replace
on src/api/transcribe.js lines 928-929 does.  The pattern is the
regex-escaped literal word, so matching is plain case-insensitive substring
comparison and a match always has the length of w; an empty word never
matches (the empty pattern replaces nothing).  The replacement string is
fed through getSubstitution, with the matched span taken from the subject
(its casing may differ from w) and the before and after contexts taken
from the whole subject string of the pass; orig is that subject and pos
the index of the scan point in it. -/
def ciReplaceJsF (w orig : List Char) : Nat → Nat → List Char → List Char
  | 0, _, s => s
  | _ + 1, _, [] => []
  | f + 1, pos, c :: rest =>
    if !w.isEmpty && (lowerStr w).isPrefixOf (lowerStr (c :: rest)) then
      getSubstitution ((c :: rest).take w.length) (orig.take pos)
          ((c :: rest).drop w.length) w ++
        ciReplaceJsF w orig f (pos + w.length) (rest.drop (w.length - 1))
    else c :: ciReplaceJsF w orig f (pos + 1) rest

/-- One corrector pass with the fuel instantiated. -/
def ciReplaceAllJs (text w : List Char) : List Char :=
  ciReplaceJsF w text text.length 0 text

/-- The corrector pass specialised to replacement strings without dollar
characters, for which getSubstitution is the identity and the written text
is the keyword itself; ciReplaceJsF reduces to this whenever w contains no
dollar, which is the case the idempotence argument covers. -/
def ciReplaceF (w : List Char) : Nat → List Char → List Char
  | 0, s => s
  | _ + 1, [] => []
  | f + 1, c :: rest =>
    if !w.isEmpty && (lowerStr w).isPrefixOf (lowerStr (c :: rest)) then
      w ++ ciReplaceF w f (rest.drop (w.length - 1))
    else c :: ciReplaceF w f rest

/-- The specialised pass with the fuel instantiated. -/
def ciReplaceAll (text w : List Char) : List Char :=
  ciReplaceF w text.length text

/-- processKeywords (src/api/transcribe.js lines 925-932 and src/main.js
lines 526-533): apply one corrector pass per registered keyword, in
registration order. -/
def processKeywords (keywords : List Keyword) (text : List Char) : List Char :=
  keywords.foldl (fun processed k => ciReplaceAllJs processed k.word) text

/-- The corrector pipeline on a bare list of words, used to reason about
processKeywords. -/
def applyAllWords (ws : List (List Char)) (text : List Char) : List Char :=
  ws.foldl (fun processed w => ciReplaceAll processed w) text

/-- Pointwise overwrite of a string by a patch: a some entry replaces the
character at its position, a none entry keeps it; a missing patch tail
keeps the rest of the string. -/
def applyPatch : List (Option Char) → List Char → List Char
  | [], s => s
  | _ :: _, [] => []
  | o :: p, c :: s => o.getD c :: applyPatch p s

/-- Sequential combination of two patches: where the second patch writes it
wins, elsewhere the first applies. -/
def combinePatch : List (Option Char) → List (Option Char) → List (Option Char)
  | [], q => q
  | o₁ :: p, [] => o₁ :: p
  | o₁ :: p, o₂ :: q =>
    (match o₂ with | some a => some a | none => o₁) :: combinePatch p q

/-- The patch written by one corrector pass, computed on the lower-cased
text alone: on a case-insensitive occurrence of w the registered casing of
w is written, elsewhere nothing.  The occurrence positions of a
case-insensitive literal pattern depend only on the lower-cased text, which
never changes under the corrector; this is what makes the corrector
idempotent. -/
def patchOfF (w : List Char) : Nat → List Char → List (Option Char)
  | 0, _ => []
  | _ + 1, [] => []
  | f + 1, c :: rest =>
    if !w.isEmpty && (lowerStr w).isPrefixOf (c :: rest) then
      w.map some ++ patchOfF w f (rest.drop (w.length - 1))
    else none :: patchOfF w f rest

/-- The combined patch of a word list, later passes winning. -/
def patchListOf : List (List Char) → List Char → List (Option Char)
  | [], _ => []
  | w :: ws, low => combinePatch (patchOfF w low.length low) (patchListOf ws low)

/-- The keyword-set uniqueness invariant of the data model: no two
registered keywords agree after case folding. -/
def CiUnique (ks : List Keyword) : Prop :=
  List.Pairwise (fun a b => lowerStr a.word ≠ lowerStr b.word) ks

/-- addKeyword of the local variant (src/main.js lines 553-572): trim the
input, reject empty input, reject an input that equals a registered word
case-insensitively, otherwise append the new keyword. -/
def addKeywordLocal (ks : List Keyword) (raw : List Char) (newId : Nat) :
    List Keyword :=
  let input := trim raw
  if input.isEmpty then ks
  else if ks.any (fun k => lowerStr k.word == lowerStr input) then ks
  else ks ++ [⟨newId, input⟩]

/-- addKeyword of the remote variant (src/api/transcribe.js lines
1686-1702): identical except that the duplicate check compares words for
exact equality, not case-insensitively. -/
def addKeywordRemote (ks : List Keyword) (raw : List Char) (newId : Nat) :
    List Keyword :=
  let word := trim raw
  if word.isEmpty then ks
  else if ks.any (fun k => k.word == word) then ks
  else ks ++ [⟨newId, word⟩]

/-- deleteKeyword (src/main.js lines 574-579): remove the keyword with the
given identifier. -/
def deleteKeyword (ks : List Keyword) (delId : Nat) : List Keyword :=
  ks.filter (fun k => k.id ≠ delId)

/-- loadKeywords (src/main.js lines 535-542): the stored list when present
and parseable, the empty list otherwise. -/
def loadKeywords (stored : Option (List Keyword)) : List Keyword :=
  stored.getD []

/-- Maximal absolute sample value, the first loop of normalizeAudio
(src/api/transcribe.js lines 785-789). -/
def maxAmp (xs : List ℚ) : ℚ :=
  xs.foldl (fun m x => max m |x|) 0

/-- normalizeAudio (src/api/transcribe.js lines 784-809): a waveform whose
peak is between 0.1 and 1.0 is returned unchanged, a near-silent waveform
with peak below 0.001 is returned unchanged, and otherwise every sample is
scaled by 0.95 divided by the peak. -/
def normalizeAudio (xs : List ℚ) : List ℚ :=
  if maxAmp xs ≤ 1 ∧ 1 / 10 ≤ maxAmp xs then xs
  else if maxAmp xs < 1 / 1000 then xs
  else xs.map (fun x => x * (19 / 20 / maxAmp xs))

/-- Sum of squared samples, the loop of calculateRMS (lines 814-820). -/
def sumSquares (xs : List ℚ) : ℚ :=
  xs.foldl (fun s x => s + x * x) 0

/-- Mean square of a waveform.  calculateRMS returns the square root of
this value; square roots are irrational, and since both the RMS and the
gate threshold 0.001 are nonnegative, the source comparison rms less than
0.001 is exactly the comparison of the mean square against 0.001 squared,
which is how the gate is stated below. -/
def meanSquare (xs : List ℚ) : ℚ :=
  sumSquares xs / (xs.length : ℚ)

/-- Outcome of the audio-processing stage of processAudioData
(src/api/transcribe.js lines 653-688), from the point where the resampled
waveform pcm is available (Step 3 of the source): empty data raises the
conversion error, a waveform failing the RMS gate is rejected as silent
(the caller shows a warning, clears the processing flag and returns to the
idle state without invoking the transcription capability), and otherwise
the normalized waveform is posted to the transcription worker. -/
inductive ProcessOutcome where
  | invalidData : ProcessOutcome
  | silentAudio : ProcessOutcome
  | sendToWorker : List ℚ → ProcessOutcome
deriving DecidableEq

/-- Steps 3 to 6 of processAudioData (src/api/transcribe.js lines 664-688):
validation, the RMS silence gate on the resampled waveform, then
normalization of the surviving waveform. -/
def processAudioData (pcm : List ℚ) : ProcessOutcome :=
  if pcm.length = 0 then ProcessOutcome.invalidData
  else if meanSquare pcm < 1 / 1000000 then ProcessOutcome.silentAudio
  else ProcessOutcome.sendToWorker (normalizeAudio pcm)

/-- A decoded audio buffer: sample rate and per-channel sample data, all
channels of equal length in any buffer produced by decoding. -/
structure AudioBuffer where
  sampleRate : ℚ
  channels : List (List ℚ)

/-- numberOfChannels of the buffer. -/
def AudioBuffer.numChannels (b : AudioBuffer) : Nat := b.channels.length

/-- getChannelData of the buffer. -/
def AudioBuffer.channelData (b : AudioBuffer) (i : Nat) : List ℚ :=
  b.channels.getD i []

/-- Frame count of the buffer (the length property of an AudioBuffer),
read off the first channel as the source loops do. -/
def AudioBuffer.frameCount (b : AudioBuffer) : Nat :=
  (b.channelData 0).length

/-- Duration in seconds (the duration property of an AudioBuffer). -/
def AudioBuffer.duration (b : AudioBuffer) : ℚ :=
  (b.frameCount : ℚ) / b.sampleRate

/-- Math.round for the nonnegative quantities involved: round half up. -/
def jsRound (q : ℚ) : ℤ := Int.floor (q + 1 / 2)

/-- Output length of the high-quality resampling path
(resampleWithOfflineContext, src/api/transcribe.js lines 702-734, and
resampleTo16kHzMono, src/main.js lines 338-380): the source requests an
OfflineAudioContext of Math.round of duration times the target rate frames,
and by the Web Audio rendering contract the rendered buffer has exactly the
requested number of frames.  The rendering itself is a platform black box
and only its length is modelled. -/
def offlineTargetLength (b : AudioBuffer) (targetRate : ℚ) : ℤ :=
  jsRound (b.duration * targetRate)

/-- Step 1 of resampleManually (src/api/transcribe.js lines 744-755):
a single channel is taken as is; otherwise the mono sample at index i is
the average of the first two channels at i, whatever the channel count. -/
def monoMix (b : AudioBuffer) : List ℚ :=
  if b.numChannels = 1 then b.channelData 0
  else
    let ch0 := b.channelData 0
    let ch1 := b.channelData 1
    (List.range ch0.length).map (fun i => (ch0.getD i 0 + ch1.getD i 0) / 2)

/-- Steps 2 and 3 of resampleManually (lines 757-777): identical rates are
a no-op; otherwise the output length is the floor of the source length
divided by the rate ratio and each output sample is the linear
interpolation of the two neighbouring source samples. -/
def linearResample (monoData : List ℚ) (sourceSampleRate targetSampleRate : ℚ) :
    List ℚ :=
  if sourceSampleRate = targetSampleRate then monoData
  else
    (List.range
        ((Int.floor ((monoData.length : ℚ) /
          (sourceSampleRate / targetSampleRate))).toNat)).map (fun (i : Nat) =>
      let srcIndex : ℚ := (i : ℚ) * (sourceSampleRate / targetSampleRate)
      let srcFloor := (Int.floor srcIndex).toNat
      let srcCeil := min (srcFloor + 1) (monoData.length - 1)
      let frac : ℚ := srcIndex - (srcFloor : ℚ)
      monoData.getD srcFloor 0 * (1 - frac) + monoData.getD srcCeil 0 * frac)

/-- resampleManually (src/api/transcribe.js lines 740-778): downmix to
mono first, then convert the rate. -/
def resampleManually (b : AudioBuffer) (targetSampleRate : ℚ) : List ℚ :=
  linearResample (monoMix b) b.sampleRate targetSampleRate

/-- A persisted transcription record (createTranscription,
src/api/transcribe.js lines 822-831).  The formatted date string is
abstracted by the raw timestamp it is computed from. -/
structure Transcription where
  id : List Char
  date : Nat
  preview : List Char
  fullText : List Char
deriving DecidableEq

/-- createTranscription (lines 822-831): time-derived identifier, date, a
preview of the first thirty characters with an ellipsis when truncated, and
the full text. -/
def createTranscription (text : List Char) (now : Nat) : Transcription :=
  { id := str "ts_" ++ (Nat.toDigits 10 now)
    date := now
    preview := if 30 < text.length then text.take 30 ++ str "..." else text
    fullText := text }

/-- User-visible status of the status indicator. -/
inductive UiStatus where
  | ready : UiStatus
  | recording : UiStatus
  | processing : UiStatus
deriving DecidableEq

/-- The application state owned by the control thread, restricted to the
fields the transcription-result handler touches: the in-memory record list,
its persisted mirror (localStorage under the transcriptions key, rewritten
as a whole by saveTranscriptions), the keyword set, the processing flag and
the status indicator. -/
structure AppState where
  transcriptions : List Transcription
  storedTranscriptions : List Transcription
  keywords : List Keyword
  isProcessing : Bool
  status : UiStatus

/-- Outcome of handling one transcription result. -/
inductive ResultOutcome where
  | savedRecord : Transcription → ResultOutcome
  | emptyResult : ResultOutcome
  | noText : ResultOutcome

/-- saveTranscriptions (lines 843-850): mirror the in-memory list into the
store. -/
def saveTranscriptions (s : AppState) : AppState :=
  { s with storedTranscriptions := s.transcriptions }

/-- handleTranscriptionResult (src/api/transcribe.js lines 255-281): clear
the processing flag; with no usable text, or when the hallucination filter
rejects everything, show a warning and return to the ready state without
touching the record list or the store; otherwise apply the keyword
corrector, create the record, prepend it, persist, and return to the ready
state. -/
def handleTranscriptionResult (s : AppState) (text : List Char) (now : Nat) :
    AppState × ResultOutcome :=
  let s1 : AppState := { s with isProcessing := false }
  if (trim text).isEmpty then ({ s1 with status := UiStatus.ready }, ResultOutcome.noText)
  else
    let cleaned := cleanText (trim text)
    if cleaned.isEmpty then
      ({ s1 with status := UiStatus.ready }, ResultOutcome.emptyResult)
    else
      let processedText := processKeywords s1.keywords cleaned
      let t := createTranscription processedText now
      let s2 := { s1 with transcriptions := t :: s1.transcriptions }
      let s3 := saveTranscriptions s2
      ({ s3 with status := UiStatus.ready }, ResultOutcome.savedRecord t)

/-- C1.  The claim quantifies over every repetition present in the text,
but hasRepetitionLoop inspects only the leftmost match of the pattern: in
the text below the leftmost repetition is the harmless triple xyz of length
nine, covering only a quarter of the text, while the later repetition of
qrstu covers 25 of 36 characters; the filter keeps the text, so the claim
as stated is false. -/
theorem c1_counterexample :
    (∃ s L c, 3 ≤ L ∧ L ≤ 20 ∧ 3 ≤ c ∧
      s + L * c ≤ (str "xyzxyzxyzABqrstuqrstuqrstuqrstuqrstu").length ∧
      repeatsAt (str "xyzxyzxyzABqrstuqrstuqrstuqrstuqrstu") s L c = true ∧
      (str "xyzxyzxyzABqrstuqrstuqrstuqrstuqrstu").length < 2 * (L * c)) ∧
    cleanText (str "xyzxyzxyzABqrstuqrstuqrstuqrstuqrstu") ≠ [] :=
  ⟨⟨11, 5, 5, by decide, by decide, by decide, by decide, by decide, by decide⟩,
   by decide⟩

/-- C1, amended.  If the leftmost match of the repetition pattern (a
substring of three to twenty characters repeated at least three times
consecutively) covers more than half of a text of at least six characters,
then cleanText rejects the whole text. -/
theorem c1_loop_rejection (t : List Char) (m : Nat) (hlen : 6 ≤ t.length)
    (hm : firstLoopMatch t = some m) (hspan : t.length < 2 * m) :
    cleanText t = [] := by
  have hloop : hasRepetitionLoop t = true := by
    unfold hasRepetitionLoop
    rw [if_neg (by omega), hm]
    simp [hspan]
  have hne : t.isEmpty = false := by
    cases t with
    | nil => simp at hlen
    | cons a l => rfl
  simp [cleanText, hne, hloop]

/-- C1, witness: the four-fold repetition of a four-character phrase is
wholly covered by the leftmost match and is rejected. -/
theorem c1_loop_rejection_witness :
    (6 ≤ (str "そうですそうですそうですそうです").length ∧
     firstLoopMatch (str "そうですそうですそうですそうです") = some 16 ∧
     (str "そうですそうですそうですそうです").length < 2 * 16) ∧
    cleanText (str "そうですそうですそうですそうです") = [] :=
  ⟨⟨by decide, by decide, by decide⟩,
   c1_loop_rejection (str "そうですそうですそうですそうです") 16 (by decide)
     (by decide) (by decide)⟩

/-- C2.  The blacklist pass rejoins the surviving sentences with the
ideographic full stop and then strips the delimiter runs at both ends, so
the kept sentence loses its trailing full stop: the output is not the
claimed string with the full stop. -/
theorem c2_counterexample :
    cleanText (str "今日は会議でした。ご視聴ありがとうございました。") ≠
      str "今日は会議でした。" := by decide

/-- C2, amended.  On the input with one blacklisted and one ordinary
sentence, cleanText drops the blacklisted sentence and returns the other
one without the trailing sentence delimiter. -/
theorem c2_blacklist_sentence_strip :
    cleanText (str "今日は会議でした。ご視聴ありがとうございました。") =
      str "今日は会議でした" := by decide

/-- C3.  Whatever the input, if the text surviving all filtering stages is
shorter than three characters after the final trims then cleanText rejects
entirely; the two-character input is rejected while the three-character
sentence survives verbatim. -/
theorem c3_length_floor :
    (∀ t : List Char, (cleanPipeline t).length < 3 → cleanText t = []) ∧
    cleanText (str "あ。") = [] ∧
    cleanText (str "会議中。") = str "会議中。" := by
  refine ⟨fun t h => ?_, by decide, by decide⟩
  have h2 : (finalTrim (collapseWordReps (collapseReps 2 15
      (stripBlacklistSentences (squashSymbolRuns t))))).length < 3 := by
    simpa [cleanPipeline] using h
  simp only [cleanText]
  by_cases e1 : t.isEmpty = true
  · rw [if_pos e1]
  rw [if_neg e1]
  by_cases e2 : hasRepetitionLoop t = true
  · rw [if_pos e2]
  rw [if_neg e2]
  by_cases e3 : blacklistOnly (stripBlacklistSentences (squashSymbolRuns t)) = true
  · rw [if_pos e3]
  rw [if_neg e3]
  by_cases e4 : isNoiseText (trim (collapseWordReps (collapseReps 2 15
      (stripBlacklistSentences (squashSymbolRuns t))))) = true
  · rw [if_pos e4]
  rw [if_neg e4, if_pos h2]

/-- C3, witness: a two-character latin input passes every stage unchanged,
ends with length two and is rejected by the final gate. -/
theorem c3_length_floor_witness :
    (cleanPipeline (str "xy")).length < 3 ∧ cleanText (str "xy") = [] :=
  ⟨by decide, c3_length_floor.1 (str "xy") (by decide)⟩

/-- C8.  When the hallucination filter rejects the whole transcript, the
handler leaves the in-memory record list and its persisted mirror
untouched, clears the processing flag, returns the status indicator to
ready, and creates no record. -/
theorem c8_empty_result_atomic (s : AppState) (text : List Char) (now : Nat)
    (h : cleanText (trim text) = []) :
    ((handleTranscriptionResult s text now).1.transcriptions = s.transcriptions ∧
     (handleTranscriptionResult s text now).1.storedTranscriptions =
       s.storedTranscriptions ∧
     (handleTranscriptionResult s text now).1.status = UiStatus.ready ∧
     (handleTranscriptionResult s text now).1.isProcessing = false) ∧
    ∀ tr, (handleTranscriptionResult s text now).2 ≠ ResultOutcome.savedRecord tr := by
  by_cases he : (trim text).isEmpty
  · simp [handleTranscriptionResult, he]
  · simp [handleTranscriptionResult, he, h]

/-- Any intermediate accumulator bounds the folded maximum from below. -/
lemma le_foldl_maxAbs (xs : List ℚ) :
    ∀ a : ℚ, a ≤ xs.foldl (fun m x => max m |x|) a := by
  induction xs with
  | nil => intro a; exact le_refl a
  | cons y ys ih =>
    intro a
    exact le_trans (le_max_left a |y|) (ih (max a |y|))

/-- Every sample is bounded in absolute value by the folded maximum. -/
lemma abs_le_maxAmp {xs : List ℚ} {x : ℚ} (hx : x ∈ xs) : |x| ≤ maxAmp xs := by
  unfold maxAmp
  suffices h : ∀ a : ℚ, |x| ≤ xs.foldl (fun m y => max m |y|) a from h 0
  induction xs with
  | nil => cases hx
  | cons y ys ih =>
    intro a
    rw [List.foldl_cons]
    rcases List.mem_cons.mp hx with h | h
    · subst h
      exact le_trans (le_max_right a |x|) (le_foldl_maxAbs ys (max a |x|))
    · exact ih h (max a |y|)

/-- C4.  The constant waveform at full scale is non-silent, is returned
unchanged by normalizeAudio (its peak lies in the pass-through band from
0.1 to 1.0), and its peak 1 exceeds 0.95 by far more than any rounding
epsilon (witnessed here with epsilon 0.01, a thousandfold float margin), so
the claimed bound 0.95 plus epsilon is false. -/
theorem c4_counterexample :
    maxAmp [(1 : ℚ)] = 1 ∧ (1 : ℚ) ∈ normalizeAudio [(1 : ℚ)] ∧
    ¬ ((1 : ℚ) ≤ 19 / 20 + 1 / 100) := by
  have hm : maxAmp [(1 : ℚ)] = 1 := by
    simp [maxAmp, abs_of_nonneg]
  refine ⟨hm, ?_, by norm_num⟩
  unfold normalizeAudio
  rw [hm, if_pos (by norm_num)]
  simp

/-- C4, amended.  For every non-silent waveform (peak at least 0.001),
every sample of the normalized waveform is bounded by 1 in absolute value:
the pass-through band admits peaks up to 1.0 and the scaling branch yields
peak exactly 0.95. -/
theorem c4_normalization_bound (xs : List ℚ) (y : ℚ)
    (hs : 1 / 1000 ≤ maxAmp xs) (hy : y ∈ normalizeAudio xs) : |y| ≤ 1 := by
  unfold normalizeAudio at hy
  split_ifs at hy with h1 h2
  · exact le_trans (abs_le_maxAmp hy) h1.1
  · exact absurd h2 (not_lt.mpr hs)
  · obtain ⟨x, hx, rfl⟩ := List.mem_map.mp hy
    have hm : (0 : ℚ) < maxAmp xs := lt_of_lt_of_le (by norm_num) hs
    have hpos : (0 : ℚ) ≤ 19 / 20 / maxAmp xs := by positivity
    calc |x * (19 / 20 / maxAmp xs)| = |x| * (19 / 20 / maxAmp xs) := by
          rw [abs_mul, abs_of_nonneg hpos]
      _ ≤ maxAmp xs * (19 / 20 / maxAmp xs) :=
          mul_le_mul_of_nonneg_right (abs_le_maxAmp hx) hpos
      _ = 19 / 20 := by field_simp; ring
      _ ≤ 1 := by norm_num

/-- C4, witness: a half-scale waveform is non-silent and stays within the
unit bound. -/
theorem c4_normalization_bound_witness :
    ((1 : ℚ) / 1000 ≤ maxAmp [(1 : ℚ) / 2]) ∧
    ((1 : ℚ) / 2 ∈ normalizeAudio [(1 : ℚ) / 2]) ∧ |(1 : ℚ) / 2| ≤ 1 := by
  have hm : maxAmp [(1 : ℚ) / 2] = 1 / 2 := by
    simp [maxAmp, abs_of_nonneg]
  have h1 : (1 : ℚ) / 1000 ≤ maxAmp [(1 : ℚ) / 2] := by rw [hm]; norm_num
  have h2 : (1 : ℚ) / 2 ∈ normalizeAudio [(1 : ℚ) / 2] := by
    unfold normalizeAudio
    rw [hm, if_pos (by norm_num)]
    simp
  exact ⟨h1, h2, c4_normalization_bound [(1 : ℚ) / 2] ((1 : ℚ) / 2) h1 h2⟩

/-- C5.  The silence gate of processAudioData runs on the resampled
waveform before normalization (Step 4 precedes Step 5 in the source): this
waveform is rejected as silent although its normalized form has mean square
far above the squared threshold, so a gate placed after normalization, as
the claim states, would have accepted it. -/
theorem c5_counterexample :
    processAudioData [1 / 500, 0, 0, 0, 0] = ProcessOutcome.silentAudio ∧
    ¬ (meanSquare (normalizeAudio [1 / 500, 0, 0, 0, 0]) < 1 / 1000000) := by
  have habs : |(1 : ℚ) / 500| = 1 / 500 := abs_of_nonneg (by norm_num)
  have hm : maxAmp [1 / 500, 0, 0, 0, 0] = 1 / 500 := by
    norm_num [maxAmp, habs, max_def]
  have hnorm : normalizeAudio [1 / 500, 0, 0, 0, 0] = [19 / 20, 0, 0, 0, 0] := by
    unfold normalizeAudio
    rw [hm, if_neg (by norm_num), if_neg (by norm_num)]
    norm_num
  have hms : meanSquare ([1 / 500, 0, 0, 0, 0] : List ℚ) < 1 / 1000000 := by
    norm_num [meanSquare, sumSquares]
  constructor
  · unfold processAudioData
    rw [if_neg (by norm_num), if_pos hms]
  · rw [hnorm]
    norm_num [meanSquare, sumSquares]

/-- C5, amended.  The silence gate computes the RMS of the resampled,
not-yet-normalized waveform; whenever that RMS is below 0.001 (equivalently
the mean square is below 0.001 squared) the stage rejects the capture as
silent: nothing is sent to the transcription worker and the caller resets
to idle.  Normalization is applied only to waveforms that pass the gate. -/
theorem c5_silence_gate (pcm : List ℚ) (hne : pcm ≠ [])
    (h : meanSquare pcm < 1 / 1000000) :
    processAudioData pcm = ProcessOutcome.silentAudio := by
  unfold processAudioData
  rw [if_neg (by simpa [List.length_eq_zero] using hne), if_pos h]

/-- C5, witness: the nearly silent five-sample waveform is gated. -/
theorem c5_silence_gate_witness :
    ([1 / 500, 0, 0, 0, 0] : List ℚ) ≠ [] ∧
    meanSquare [1 / 500, 0, 0, 0, 0] < 1 / 1000000 ∧
    processAudioData [1 / 500, 0, 0, 0, 0] = ProcessOutcome.silentAudio := by
  have h1 : ([1 / 500, 0, 0, 0, 0] : List ℚ) ≠ [] := by simp
  have h2 : meanSquare ([1 / 500, 0, 0, 0, 0] : List ℚ) < 1 / 1000000 := by
    norm_num [meanSquare, sumSquares]
  exact ⟨h1, h2, c5_silence_gate _ h1 h2⟩

/-- The downmix never changes the frame count. -/
lemma monoMix_length (b : AudioBuffer) : (monoMix b).length = b.frameCount := by
  unfold monoMix
  split
  · rfl
  · simp [AudioBuffer.frameCount]

/-- Element of a mapped range at an in-range index. -/
lemma getD_map_range (n i : Nat) (f : Nat → ℚ) (d : ℚ) (hi : i < n) :
    ((List.range n).map f).getD i d = f i := by
  rw [List.getD_eq_getElem?_getD, List.getElem?_map, List.getElem?_range hi]
  rfl

/-- C6.  The fallback path computes its output length with Math.floor of
length over ratio, not Math.round of duration times target rate: a buffer
of 146 frames at 48000 Hz yields 48 output samples while the claimed
formula gives 49. -/
theorem c6_counterexample :
    (resampleManually ⟨48000, [List.replicate 146 0]⟩ 16000).length = 48 ∧
    jsRound ((AudioBuffer.duration ⟨48000, [List.replicate 146 0]⟩) * 16000) = 49 ∧
    ((resampleManually ⟨48000, [List.replicate 146 0]⟩ 16000).length : ℤ) ≠
      jsRound ((AudioBuffer.duration ⟨48000, [List.replicate 146 0]⟩) * 16000) := by
  have hdur : AudioBuffer.duration ⟨48000, [List.replicate 146 0]⟩ = 146 / 48000 := by
    simp [AudioBuffer.duration, AudioBuffer.frameCount, AudioBuffer.channelData]
  have h1 : (resampleManually ⟨48000, [List.replicate 146 0]⟩ 16000).length = 48 := by
    unfold resampleManually linearResample
    rw [if_neg (by norm_num)]
    have hmono : (monoMix ⟨48000, [List.replicate 146 0]⟩).length = 146 := by
      simp [monoMix, AudioBuffer.numChannels, AudioBuffer.channelData]
    simp only [List.length_map, List.length_range, hmono]
    norm_num
    rfl
  have h2 : jsRound ((AudioBuffer.duration ⟨48000, [List.replicate 146 0]⟩) * 16000) = 49 := by
    rw [hdur]
    unfold jsRound
    norm_num
  exact ⟨h1, h2, by rw [h1, h2]; decide⟩

/-- C6, amended.  The high-quality path produces Math.round of duration
times target rate samples (the source requests exactly that many frames
from the offline rendering context); the linear-interpolation fallback
produces Math.floor of source length over the rate ratio samples, which
agrees with the round formula when source and target rates coincide but in
general may be one fewer. -/
theorem c6_resample_length (b : AudioBuffer) (t : ℚ) (hFs : b.sampleRate ≠ 0) :
    offlineTargetLength b t = jsRound (b.duration * t) ∧
    (b.sampleRate = t →
      ((resampleManually b t).length : ℤ) = jsRound (b.duration * t)) ∧
    (b.sampleRate ≠ t →
      (resampleManually b t).length =
        (Int.floor ((b.frameCount : ℚ) / (b.sampleRate / t))).toNat) := by
  refine ⟨rfl, ?_, ?_⟩
  · intro ht
    unfold resampleManually linearResample
    rw [if_pos ht, monoMix_length]
    have hd : b.duration * t = (b.frameCount : ℚ) := by
      rw [AudioBuffer.duration, ← ht, div_mul_cancel₀ _ hFs]
    rw [hd]
    unfold jsRound
    have : ((b.frameCount : ℚ) + 1 / 2) = 1 / 2 + ((b.frameCount : ℤ) : ℚ) := by
      push_cast; ring
    rw [this, Int.floor_add_int]
    norm_num
  · intro ht
    unfold resampleManually linearResample
    rw [if_neg ht]
    simp only [List.length_map, List.length_range, monoMix_length]

/-- C6, witness: a three-frame mono buffer already at the target rate keeps
its three samples, matching the round formula. -/
theorem c6_resample_length_witness :
    ((16000 : ℚ) ≠ 0) ∧
    ((resampleManually ⟨16000, [[0, 0, 0]]⟩ 16000).length : ℤ) =
      jsRound ((AudioBuffer.duration ⟨16000, [[0, 0, 0]]⟩) * 16000) := by
  have h0 : (16000 : ℚ) ≠ 0 := by norm_num
  exact ⟨h0, (c6_resample_length ⟨16000, [[0, 0, 0]]⟩ 16000 h0).2.1 rfl⟩

/-- C7.  For a three-channel buffer the downmix still averages only the
first two channels: with channels at 1, 0 and 1 the mono sample is one
half, while the arithmetic mean of the three channels is two thirds. -/
theorem c7_counterexample :
    (monoMix ⟨48000, [[1], [0], [1]]⟩).getD 0 0 = 1 / 2 ∧
    ((1 : ℚ) + 0 + 1) / 3 ≠ 1 / 2 := by
  constructor
  · have h3 : AudioBuffer.numChannels ⟨48000, [[(1 : ℚ)], [0], [1]]⟩ = 3 := rfl
    unfold monoMix
    rw [h3, if_neg (by omega)]
    norm_num [AudioBuffer.channelData, List.range_succ]
  · norm_num

/-- C7, amended.  For every buffer of at least two channels the downmixed
mono sample at an in-range index i is the average of the first two
channels at i (which is the arithmetic mean of all channels exactly when
the channel count is two), and resampleManually performs the rate
conversion on this downmixed signal. -/
theorem c7_downmix (b : AudioBuffer) (i : Nat) (r : ℚ)
    (hc : 2 ≤ b.numChannels) (hi : i < b.frameCount) :
    (monoMix b).getD i 0 =
      ((b.channelData 0).getD i 0 + (b.channelData 1).getD i 0) / 2 ∧
    resampleManually b r = linearResample (monoMix b) b.sampleRate r := by
  refine ⟨?_, rfl⟩
  unfold monoMix
  rw [if_neg (by omega)]
  exact getD_map_range _ i _ 0 hi

/-- C7, witness: a concrete two-channel buffer averages to three. -/
theorem c7_downmix_witness :
    2 ≤ AudioBuffer.numChannels ⟨48000, [[(2 : ℚ)], [4]]⟩ ∧
    0 < AudioBuffer.frameCount ⟨48000, [[(2 : ℚ)], [4]]⟩ ∧
    (monoMix ⟨48000, [[(2 : ℚ)], [4]]⟩).getD 0 0 =
      ((AudioBuffer.channelData ⟨48000, [[(2 : ℚ)], [4]]⟩ 0).getD 0 0 +
       (AudioBuffer.channelData ⟨48000, [[(2 : ℚ)], [4]]⟩ 1).getD 0 0) / 2 := by
  have hc : 2 ≤ AudioBuffer.numChannels ⟨48000, [[(2 : ℚ)], [4]]⟩ := by
    simp [AudioBuffer.numChannels]
  have hi : 0 < AudioBuffer.frameCount ⟨48000, [[(2 : ℚ)], [4]]⟩ := by
    simp [AudioBuffer.frameCount, AudioBuffer.channelData]
  exact ⟨hc, hi, (c7_downmix ⟨48000, [[(2 : ℚ)], [4]]⟩ 0 48000 hc hi).1⟩

/-- C8, witness: a transcript the filter rejects leaves a concrete
processing state unchanged except for the flags. -/
theorem c8_empty_result_atomic_witness :
    cleanText (trim (str "あ。")) = [] ∧
    (handleTranscriptionResult ⟨[], [], [], true, UiStatus.processing⟩
        (str "あ。") 0).1.transcriptions = [] :=
  ⟨by decide,
   ((c8_empty_result_atomic ⟨[], [], [], true, UiStatus.processing⟩
       (str "あ。") 0 (by decide)).1).1⟩

/-- Unfolding the lower-cased view on a cons cell. -/
lemma lowerStr_cons (c : Char) (s : List Char) :
    lowerStr (c :: s) = Char.toLower c :: lowerStr s := rfl

/-- The lower-cased view commutes with append. -/
lemma lowerStr_append (s t : List Char) :
    lowerStr (s ++ t) = lowerStr s ++ lowerStr t := by
  simp [lowerStr]

/-- The lower-cased view commutes with drop. -/
lemma lowerStr_drop (n : Nat) (s : List Char) :
    lowerStr (s.drop n) = (lowerStr s).drop n := by
  simp [lowerStr, List.map_drop]

/-- The lower-cased view preserves length. -/
lemma lowerStr_length (s : List Char) : (lowerStr s).length = s.length := by
  simp [lowerStr]

/-- A Boolean prefix is no longer than the list it prefixes. -/
lemma isPrefixOf_length_le :
    ∀ {l₁ l₂ : List Char}, l₁.isPrefixOf l₂ = true → l₁.length ≤ l₂.length := by
  intro l₁
  induction l₁ with
  | nil => intro l₂ h; simp
  | cons a as ih =>
    intro l₂ h
    cases l₂ with
    | nil => simp [List.isPrefixOf] at h
    | cons b bs =>
      simp only [List.isPrefixOf, Bool.and_eq_true] at h
      simpa using ih h.2

/-- A list decomposes as a Boolean prefix plus the remainder. -/
lemma eq_append_drop_of_isPrefixOf :
    ∀ {l₁ l₂ : List Char}, l₁.isPrefixOf l₂ = true →
      l₂ = l₁ ++ l₂.drop l₁.length := by
  intro l₁
  induction l₁ with
  | nil => intro l₂ h; simp
  | cons a as ih =>
    intro l₂ h
    cases l₂ with
    | nil => simp [List.isPrefixOf] at h
    | cons b bs =>
      simp only [List.isPrefixOf, Bool.and_eq_true, beq_iff_eq] at h
      obtain ⟨rfl, h2⟩ := h
      simpa using congrArg (List.cons a) (ih h2)

/-- Applying a patch that starts with a written chunk peels off the
chunk. -/
lemma applyPatch_mapSome_append (w : List Char) :
    ∀ (p : List (Option Char)) (s : List Char), w.length ≤ s.length →
      applyPatch (w.map some ++ p) s = w ++ applyPatch p (s.drop w.length) := by
  induction w with
  | nil => intro p s _; simp
  | cons a w' ih =>
    intro p s h
    cases s with
    | nil => simp at h
    | cons c s' =>
      simp only [List.map_cons, List.cons_append, applyPatch, Option.getD_some,
        List.length_cons, List.drop_succ_cons]
      exact congrArg (List.cons a) (ih p s' (Nat.succ_le_succ_iff.mp (by simpa using h)))

/-- One corrector pass equals applying the patch computed on the
lower-cased text: match positions depend only on the lower-cased view. -/
lemma ciReplaceF_eq_applyPatch (w : List Char) :
    ∀ (f : Nat) (s : List Char),
      ciReplaceF w f s = applyPatch (patchOfF w f (lowerStr s)) s := by
  intro f
  induction f with
  | zero => intro s; rfl
  | succ f ih =>
    intro s
    cases s with
    | nil => rfl
    | cons c rest =>
      have hlc : lowerStr (c :: rest) = Char.toLower c :: lowerStr rest := rfl
      simp only [ciReplaceF]
      rw [hlc]
      simp only [patchOfF]
      cases hcond : (!w.isEmpty &&
          (lowerStr w).isPrefixOf (Char.toLower c :: lowerStr rest)) with
      | false =>
        rw [if_neg (by simp), if_neg (by simp)]
        simp only [applyPatch, Option.getD_none]
        rw [ih rest]
      | true =>
        rw [if_pos rfl, if_pos rfl]
        rw [Bool.and_eq_true] at hcond
        obtain ⟨hw, hpre⟩ := hcond
        cases w with
        | nil => simp at hw
        | cons a w' =>
          have hlen : (a :: w').length ≤ (c :: rest).length := by
            have hll := isPrefixOf_length_le hpre
            simpa [lowerStr] using hll
          rw [applyPatch_mapSome_append (a :: w') _ _ hlen]
          have hdrop : (c :: rest).drop (a :: w').length = rest.drop w'.length := by
            simp
          have hdl : (a :: w').length - 1 = w'.length := by simp
          rw [hdrop, hdl, ih (rest.drop w'.length), lowerStr_drop]

/-- One corrector pass never changes the lower-cased view: every written
chunk agrees with the overwritten span after case folding. -/
lemma lowerStr_ciReplaceF (w : List Char) :
    ∀ (f : Nat) (s : List Char), lowerStr (ciReplaceF w f s) = lowerStr s := by
  intro f
  induction f with
  | zero => intro s; rfl
  | succ f ih =>
    intro s
    cases s with
    | nil => rfl
    | cons c rest =>
      simp only [ciReplaceF]
      cases hcond : (!w.isEmpty &&
          (lowerStr w).isPrefixOf (lowerStr (c :: rest))) with
      | false =>
        rw [if_neg (by simp)]
        rw [lowerStr_cons, lowerStr_cons, ih rest]
      | true =>
        rw [if_pos rfl]
        rw [Bool.and_eq_true] at hcond
        obtain ⟨hw, hpre⟩ := hcond
        cases w with
        | nil => simp at hw
        | cons a w' =>
          have hdl : (a :: w').length - 1 = w'.length := by simp
          rw [hdl, lowerStr_append, ih (rest.drop w'.length), lowerStr_drop]
          have hsplit := eq_append_drop_of_isPrefixOf hpre
          rw [hsplit]
          congr 1
          have hL : (lowerStr (a :: w')).length = w'.length + 1 := by
            simp [lowerStr]
          rw [hL, show lowerStr (c :: rest) = Char.toLower c :: lowerStr rest from rfl,
            List.drop_succ_cons]

/-- Patch form of a full corrector pass. -/
lemma ciReplaceAll_eq_applyPatch (s w : List Char) :
    ciReplaceAll s w = applyPatch (patchOfF w (lowerStr s).length (lowerStr s)) s := by
  rw [lowerStr_length]
  exact ciReplaceF_eq_applyPatch w s.length s

/-- Case-fold invariance of a full corrector pass. -/
lemma lowerStr_ciReplaceAll (s w : List Char) :
    lowerStr (ciReplaceAll s w) = lowerStr s :=
  lowerStr_ciReplaceF w s.length s

/-- Applying two patches in sequence is applying their combination. -/
lemma applyPatch_applyPatch :
    ∀ (p q : List (Option Char)) (s : List Char),
      applyPatch q (applyPatch p s) = applyPatch (combinePatch p q) s := by
  intro p
  induction p with
  | nil => intro q s; rfl
  | cons o p' ih =>
    intro q s
    cases s with
    | nil => cases q <;> rfl
    | cons c s' =>
      cases q with
      | nil => rfl
      | cons o₂ q' =>
        cases o₂ with
        | some a => simp [applyPatch, combinePatch, ih]
        | none => simp [applyPatch, combinePatch, ih]

/-- Applying the same patch twice is applying it once. -/
lemma applyPatch_self :
    ∀ (p : List (Option Char)) (s : List Char),
      applyPatch p (applyPatch p s) = applyPatch p s := by
  intro p
  induction p with
  | nil => intro s; rfl
  | cons o p' ih =>
    intro s
    cases s with
    | nil => rfl
    | cons c s' =>
      cases o with
      | some a => simp [applyPatch, Option.getD_some, ih]
      | none => simp [applyPatch, Option.getD_none, ih]

/-- Case-fold invariance of the whole corrector pipeline. -/
lemma lowerStr_applyAllWords :
    ∀ (ws : List (List Char)) (s : List Char),
      lowerStr (applyAllWords ws s) = lowerStr s := by
  intro ws
  induction ws with
  | nil => intro s; rfl
  | cons w ws ih =>
    intro s
    show lowerStr (applyAllWords ws (ciReplaceAll s w)) = _
    rw [ih, lowerStr_ciReplaceAll]

/-- Patch form of the whole corrector pipeline: the combined patch depends
only on the lower-cased text, which the pipeline never changes. -/
lemma applyAllWords_eq_applyPatch :
    ∀ (ws : List (List Char)) (s : List Char),
      applyAllWords ws s = applyPatch (patchListOf ws (lowerStr s)) s := by
  intro ws
  induction ws with
  | nil => intro s; rfl
  | cons w ws ih =>
    intro s
    show applyAllWords ws (ciReplaceAll s w) = _
    rw [ih (ciReplaceAll s w), lowerStr_ciReplaceAll, ciReplaceAll_eq_applyPatch,
      applyPatch_applyPatch]
    rfl

/-- The corrector pipeline is idempotent on every input. -/
lemma applyAllWords_idem (ws : List (List Char)) (s : List Char) :
    applyAllWords ws (applyAllWords ws s) = applyAllWords ws s := by
  conv_lhs => rw [applyAllWords_eq_applyPatch]
  rw [lowerStr_applyAllWords, applyAllWords_eq_applyPatch ws s, applyPatch_self]

/-- A replacement string without dollar characters passes through
getSubstitution unchanged. -/
lemma getSubstitution_no_dollar (matched before after : List Char) :
    ∀ repl : List Char, '$' ∉ repl →
      getSubstitution matched before after repl = repl := by
  intro repl
  induction repl with
  | nil => intro _; rfl
  | cons c rest ih =>
    intro h
    rw [List.mem_cons, not_or] at h
    rw [getSubstitution.eq_def]
    dsimp only
    rw [if_neg (fun hc => h.1 hc.symm), ih h.2]

/-- For a keyword without dollar characters the faithful corrector pass
coincides with the specialised pass: each match writes the keyword
literally, independently of the subject context. -/
lemma ciReplaceJsF_no_dollar (w : List Char) (hw : '$' ∉ w) :
    ∀ (f : Nat) (orig : List Char) (pos : Nat) (s : List Char),
      ciReplaceJsF w orig f pos s = ciReplaceF w f s := by
  intro f
  induction f with
  | zero => intro orig pos s; rfl
  | succ f ih =>
    intro orig pos s
    cases s with
    | nil => rfl
    | cons c rest =>
      simp only [ciReplaceJsF, ciReplaceF]
      cases hcond : (!w.isEmpty &&
          (lowerStr w).isPrefixOf (lowerStr (c :: rest))) with
      | false =>
        rw [if_neg (by simp), if_neg (by simp)]
        rw [ih orig (pos + 1) rest]
      | true =>
        rw [if_pos rfl, if_pos rfl]
        rw [getSubstitution_no_dollar _ _ _ w hw,
          ih orig (pos + w.length) (rest.drop (w.length - 1))]

/-- With every keyword free of dollar characters, the corrector equals the
specialised pipeline the patch argument is stated about. -/
lemma processKeywords_eq_applyAllWords :
    ∀ (ks : List Keyword), (∀ k ∈ ks, '$' ∉ k.word) →
      ∀ t : List Char, processKeywords ks t = applyAllWords (ks.map Keyword.word) t := by
  intro ks
  induction ks with
  | nil => intro _ t; rfl
  | cons k ks ih =>
    intro hd t
    show processKeywords ks (ciReplaceAllJs t k.word) = _
    have hk : ciReplaceAllJs t k.word = ciReplaceAll t k.word :=
      ciReplaceJsF_no_dollar k.word (hd k (List.mem_cons_self k ks)) t.length t 0 t
    rw [hk]
    exact ih (fun a ha => hd a (List.mem_cons_of_mem k ha)) (ciReplaceAll t k.word)

/-- C9.  The replacement string of the corrector is subject to ECMAScript
dollar substitution: for the keyword written A-dollar-ampersand the
replacement interpolates the matched span, so one pass grows the text and
a second pass grows it again — processKeywords is not idempotent for every
keyword set, refuting the claim (the single keyword overlaps with nothing,
so the overlap-ambiguity proviso does not exclude this input). -/
theorem c9_counterexample :
    processKeywords [⟨1, str "A$&"⟩]
        (processKeywords [⟨1, str "A$&"⟩] (str "a$&x")) ≠
      processKeywords [⟨1, str "A$&"⟩] (str "a$&x") := by decide

/-- C9, amended.  For every keyword set whose words contain no dollar
character (so the replacement string carries no substitution escapes),
applying processKeywords twice yields the same result as applying it once,
for every text and with no overlap-ambiguity side condition needed: each
pass then matches case-insensitively and rewrites a matched span to the
same letters in canonical casing, so match positions, which depend only on
the lower-cased text, are identical in every pass, and the whole pipeline
acts as one fixed overwrite. -/
theorem c9_keyword_idempotence (keywords : List Keyword) (text : List Char)
    (hd : ∀ k ∈ keywords, '$' ∉ k.word) :
    processKeywords keywords (processKeywords keywords text) =
      processKeywords keywords text := by
  have h := processKeywords_eq_applyAllWords keywords hd
  simp only [h]
  exact applyAllWords_idem (keywords.map Keyword.word) text

/-- C9, witness: a dollar-free keyword set is idempotent on a concrete
text. -/
theorem c9_keyword_idempotence_witness :
    '$' ∉ str "Groq" ∧
    processKeywords [⟨1, str "Groq"⟩]
        (processKeywords [⟨1, str "Groq"⟩] (str "use groq now")) =
      processKeywords [⟨1, str "Groq"⟩] (str "use groq now") :=
  ⟨by decide,
   c9_keyword_idempotence [⟨1, str "Groq"⟩] (str "use groq now") (by decide)⟩

/-- C10.  The remote-variant addKeyword checks duplicates by exact word
equality only: adding a word that differs from a registered one just by
casing is accepted, changing the set and breaking the case-insensitive
uniqueness invariant. -/
theorem c10_counterexample :
    addKeywordRemote [⟨1, str "abc"⟩] (str "ABC") 2 ≠ [⟨1, str "abc"⟩] ∧
    ¬ CiUnique (addKeywordRemote [⟨1, str "abc"⟩] (str "ABC") 2) := by
  constructor
  · decide
  · unfold CiUnique
    decide

/-- C10, amended.  In the local variant the keyword set stays unique under
case-insensitive comparison: addKeyword preserves the invariant and leaves
the set unchanged when the trimmed input case-insensitively equals a
registered word, deleteKeyword preserves the invariant, and reloading a
stored set satisfying the invariant preserves it.  The remote variant
checks exact equality only, as the counterexample shows. -/
theorem c10_keyword_uniqueness (ks : List Keyword) (raw : List Char)
    (newId delId : Nat) (h : CiUnique ks) :
    CiUnique (addKeywordLocal ks raw newId) ∧
    (ks.any (fun k => lowerStr k.word == lowerStr (trim raw)) = true →
      addKeywordLocal ks raw newId = ks) ∧
    CiUnique (deleteKeyword ks delId) ∧
    CiUnique (loadKeywords (some ks)) := by
  refine ⟨?_, ?_, h.sublist (List.filter_sublist ks), h⟩
  · unfold addKeywordLocal
    by_cases he : (trim raw).isEmpty = true
    · rw [if_pos he]; exact h
    rw [if_neg he]
    by_cases hd : ks.any (fun k => lowerStr k.word == lowerStr (trim raw)) = true
    · rw [if_pos hd]; exact h
    rw [if_neg hd]
    refine List.pairwise_append.mpr ⟨h, List.pairwise_singleton _ _, ?_⟩
    intro a ha b hb
    rw [List.mem_singleton] at hb
    subst hb
    intro hEq
    exact hd (List.any_eq_true.mpr ⟨a, ha, by simp [hEq]⟩)
  · intro hd
    unfold addKeywordLocal
    by_cases he : (trim raw).isEmpty = true
    · rw [if_pos he]
    · rw [if_neg he, if_pos hd]

/-- C10, witness: adding the lower-cased form of a registered word to a
valid singleton set leaves it unchanged. -/
theorem c10_keyword_uniqueness_witness :
    CiUnique [⟨1, str "Groq"⟩] ∧
    ([⟨1, str "Groq"⟩] : List Keyword).any
      (fun k => lowerStr k.word == lowerStr (trim (str "groq"))) = true ∧
    addKeywordLocal [⟨1, str "Groq"⟩] (str "groq") 2 = [⟨1, str "Groq"⟩] := by
  have h : CiUnique [(⟨1, str "Groq"⟩ : Keyword)] := by
    simp [CiUnique]
  have ha : ([⟨1, str "Groq"⟩] : List Keyword).any
      (fun k => lowerStr k.word == lowerStr (trim (str "groq"))) = true := by decide
  exact ⟨h, ha,
    (c10_keyword_uniqueness [⟨1, str "Groq"⟩] (str "groq") 2 0 h).2.1 ha⟩

end VoiceScribe
